import Mathlib

/- Shallow embedding of the SPC6G analytical evaluation engine
   (src/calculations.py and src/analytical_prr_pir.py), together with
   theorems about the behaviour of that engine. -/

namespace SPC6G

/-! Python primitives used by the driver. -/

/-- Embedding of CPython `int(x)` applied to a float: truncation toward zero. -/
noncomputable def truncInt (x : ℝ) : ℤ := if 0 ≤ x then ⌊x⌋ else ⌈x⌉

/-- Embedding of CPython `range(a, b, st)` for a positive step: the list
`a, a + st, a + 2*st, ...` of elements strictly below `b`.  A non-positive
step yields the empty list here; CPython raises `ValueError` on a zero step
and the driver is only analysed where the step is positive. -/
def pyRange (a b st : ℤ) : List ℤ :=
  if 0 < st then
    (List.range (((b - a).toNat + st.toNat - 1) / st.toNat)).map (fun (k : ℕ) => a + (k : ℤ) * st)
  else []

/-! The functions of src/calculations.py. -/

/-- The Gauss error function, as computed by `scipy.special.erf`. -/
noncomputable def erf (x : ℝ) : ℝ :=
  2 / Real.sqrt Real.pi * ∫ t in (0:ℝ)..x, Real.exp (-t ^ 2)

/-- Base-10 logarithm (`math.log10` / `np.log10`). -/
noncomputable def log10 (x : ℝ) : ℝ := Real.log x / Real.log 10

/-- Conversion from dB to linear scale: `10 ** (x / 10)`. -/
noncomputable def dB2lin (x : ℝ) : ℝ := (10 : ℝ) ^ (x / 10)

/-- `calculate_d_int` of calculations.py. -/
noncomputable def calculate_d_int (P_t K_0 gamma d_ij alpha N_0 : ℝ) : ℝ :=
  (P_t * K_0 / (P_t * K_0 / (gamma * d_ij ^ alpha) - N_0)) ^ (1 / alpha)

/-- `calculate_RU` of calculations.py. -/
noncomputable def calculate_RU (R spsr op : ℝ) : ℝ := R * (1 - (1 - op) ^ spsr)

/-- `calculate_u_dik` of calculations.py. -/
noncomputable def calculate_u_dik (R RU common_neighbors_count spsr : ℝ) : ℝ :=
  RU ^ 2 / R * (1 - common_neighbors_count / spsr) + RU * (common_neighbors_count / spsr)

/-- `calculate_o_dik` of calculations.py. -/
def calculate_o_dik (R RU u_dik : ℝ) : ℝ := R - 2 * RU + u_dik

/-- `calculate_mu` of calculations.py. -/
noncomputable def calculate_mu (rc1 rc2 psr_value : ℝ) : ℝ :=
  1 - (1 - 2 / (rc1 + rc2)) * psr_value

/-- `calculate_p_dik` of calculations.py. -/
noncomputable def calculate_p_dik (mu_dik o_dik channels R_f : ℝ) : ℝ :=
  mu_dik * o_dik * (channels / R_f) ^ 2

/-- `calculate_ps_dik` of calculations.py. -/
def calculate_ps_dik (p_dik p_res_ik : ℝ) : ℝ := (1 - p_dik) + p_dik * (1 - p_res_ik)

/-- `calculate_prr_dij` of calculations.py. -/
def calculate_prr_dij (p_o_dij : ℝ) : ℝ := 1 - p_o_dij

/-- `calculate_pir_dij` of calculations.py; the Python value `float('inf')`
is modelled as `⊤ : EReal`. -/
noncomputable def calculate_pir_dij (p_o_dij RRI : ℝ) : EReal :=
  if 1 ≤ p_o_dij then ⊤ else ((RRI / (1 - p_o_dij) : ℝ) : EReal)

/-- `PathLoss` of calculations.py: path loss in dB paired with the constant
shadowing standard deviation 3. -/
noncomputable def PathLoss (d K0_dB gamma : ℝ) : ℝ × ℝ :=
  (-K0_dB + 10 * gamma * log10 d, 3)

/-- `PSR` of calculations.py. -/
noncomputable def PSR (d Pt_dBm P_sen_dBm K0_dB gamma : ℝ) : ℝ :=
  0.5 * (1 + erf ((Pt_dBm - (PathLoss (|d| + 1) K0_dB gamma).1 - P_sen_dBm) /
    ((PathLoss (|d| + 1) K0_dB gamma).2 * Real.sqrt 2)))

/-- The fixed discretized spatial window `np.arange(-2000, 2000, 1)`. -/
def window : List ℤ := (List.range 4000).map (fun (k : ℕ) => -2000 + (k : ℤ))

/-- `SPSR` of calculations.py. -/
noncomputable def SPSR (beta P_t_dB P_s_dB K_0_dB alpha : ℝ) : ℝ :=
  beta * (window.map (fun (x : ℤ) => PSR (x : ℝ) P_t_dB P_s_dB K_0_dB alpha)).sum

/-- `rho` of calculations.py; the second argument `sigma` does not occur in
the body. -/
noncomputable def rho (d_i_k sigma : ℝ) : ℝ := Real.exp (-d_i_k)

/-- `common_neighbors` of calculations.py. -/
noncomputable def common_neighbors (beta P_t_dB P_s_dB K_0_dB alpha d_i_k : ℝ) : ℝ :=
  beta * (window.map (fun (x : ℤ) =>
    rho d_i_k 3 * min (PSR (x : ℝ) P_t_dB P_s_dB K_0_dB alpha)
        (PSR |(x : ℝ) - d_i_k| P_t_dB P_s_dB K_0_dB alpha)
    + (1 - rho d_i_k 3) * PSR (x : ℝ) P_t_dB P_s_dB K_0_dB alpha *
        PSR |(x : ℝ) - d_i_k| P_t_dB P_s_dB K_0_dB alpha)).sum

/-! The driver `calculate_analytical_results` of src/analytical_prr_pir.py. -/

/-- The argument record of `calculate_analytical_results`, in source order. -/
structure Config where
  channels : ℝ
  sinr_threshold_dB : ℝ
  beta : ℝ
  P_t_dB : ℝ
  fc : ℝ
  alpha : ℝ
  P_s_dB : ℝ
  N_0_dB : ℝ
  maxchannel : ℝ
  slot : ℝ
  s : ℝ
  rc1 : ℝ
  rc2 : ℝ
  rri : ℝ
  p_res_ik : ℝ
  max_distance : ℤ
  step_distance : ℤ

/-- Replace only the `p_res_ik` input, keeping every other input fixed. -/
def setPres (c : Config) (p : ℝ) : Config :=
  ⟨c.channels, c.sinr_threshold_dB, c.beta, c.P_t_dB, c.fc, c.alpha, c.P_s_dB, c.N_0_dB,
    c.maxchannel, c.slot, c.s, c.rc1, c.rc2, c.rri, p, c.max_distance, c.step_distance⟩

/-- `R = maxchannel * (rri / slot)` (line 53 of the driver). -/
noncomputable def R_of (c : Config) : ℝ := c.maxchannel * (c.rri / c.slot)

/-- `K_0_dB = -(32.4 + 20 * math.log10(fc))` (line 39 of the driver). -/
noncomputable def K0dB_of (c : Config) : ℝ := -(32.4 + 20 * log10 c.fc)

/-- The `spsr` recomputed from a current sensing power `Ps` (lines 54 and 60). -/
noncomputable def spsr_at (c : Config) (Ps : ℝ) : ℝ :=
  SPSR c.beta c.P_t_dB Ps (K0dB_of c) c.alpha

/-- The `RU` recomputed from a current sensing power `Ps` (lines 55 and 61). -/
noncomputable def RU_at (c : Config) (Ps : ℝ) : ℝ :=
  calculate_RU (R_of c) (spsr_at c Ps) (c.channels / R_of c)

/-- Exit condition of the threshold-adjustment `while` loop after `n`
iterations; each iteration adds 3 dB to `P_s_dB` (lines 58-61). -/
def adjustExit (c : Config) (n : ℕ) : Prop :=
  RU_at c (c.P_s_dB + 3 * (n : ℝ)) ≤ (1 - c.s) * R_of c

/-- Number of iterations executed by the threshold-adjustment loop: the least
`n` whose recomputed `RU` meets the bound.  When no such `n` exists the Python
loop does not terminate; the theorems below are conditioned on termination. -/
noncomputable def adjustSteps (c : Config) : ℕ := sInf {n | adjustExit c n}

/-- The value of `P_s_dB` when the distance sweep starts. -/
noncomputable def P_s_final (c : Config) : ℝ := c.P_s_dB + 3 * (adjustSteps c : ℝ)

/-- The value of `spsr` when the distance sweep starts. -/
noncomputable def spsr_final (c : Config) : ℝ := spsr_at c (P_s_final c)

/-- The value of `RU` when the distance sweep starts. -/
noncomputable def RU_final (c : Config) : ℝ := RU_at c (P_s_final c)

/-- `d_int` at an outer distance `d_ij` (line 65 of the driver). -/
noncomputable def d_int_at (c : Config) (d_ij : ℤ) : ℝ :=
  calculate_d_int (dB2lin c.P_t_dB) (dB2lin (K0dB_of c)) (dB2lin c.sinr_threshold_dB)
    ((d_ij : ℝ) + 1) c.alpha (dB2lin c.N_0_dB)

/-- The inner-range step `int(1 / beta)` (line 67 of the driver). -/
noncomputable def inner_step (c : Config) : ℤ := truncInt (1 / c.beta)

/-- The inner range `range(int(d_ij - d_int), int(d_ij + d_int), int(1/beta))`
(lines 66-67 of the driver). -/
noncomputable def d_ik_range (c : Config) (d_ij : ℤ) : List ℤ :=
  pyRange (truncInt ((d_ij : ℝ) - d_int_at c d_ij))
    (truncInt ((d_ij : ℝ) + d_int_at c d_ij)) (inner_step c)

/-- The per-neighbour collision probability `p_dik` computed in lines 72-77 of
the driver for a separation `d_ik = abs(dik)`. -/
noncomputable def p_dik_at (c : Config) (d_ik : ℝ) : ℝ :=
  calculate_p_dik
    (calculate_mu c.rc1 c.rc2 (PSR d_ik c.P_t_dB (P_s_final c) (K0dB_of c) c.alpha))
    (calculate_o_dik (R_of c) (RU_final c)
      (calculate_u_dik (R_of c) (RU_final c)
        (common_neighbors c.beta c.P_t_dB (P_s_final c) (K0dB_of c) c.alpha d_ik)
        (spsr_final c)))
    c.channels (R_of c - RU_final c)

/-- The list of `p_dik` values over the inner range at an outer distance. -/
noncomputable def p_dik_list (c : Config) (d_ij : ℤ) : List ℝ :=
  (d_ik_range c d_ij).map (fun (dik : ℤ) => p_dik_at c |(dik : ℝ)|)

/-- The outer distance sequence `list(range(0, max_distance + step_distance,
step_distance))` (line 45 of the driver). -/
def distances (c : Config) : List ℤ :=
  pyRange 0 (c.max_distance + c.step_distance) c.step_distance

/-- The aggregated 6G outage `1 - np.prod(ps_values)` at an outer distance. -/
noncomputable def o_spc6G (c : Config) (d_ij : ℤ) : ℝ :=
  1 - ((p_dik_list c d_ij).map (fun p => calculate_ps_dik p (RU_final c / R_of c))).prod

/-- The aggregated NR-V2X outage `1 - np.prod(ps_dik_nr_values)` at an outer
distance. -/
noncomputable def o_nrv2x (c : Config) (d_ij : ℤ) : ℝ :=
  1 - ((p_dik_list c d_ij).map (fun p => 1 - p)).prod

/-- `calculate_analytical_results` of analytical_prr_pir.py.  The four
components are `prr_spc6G, prr_nrv2x, pir_spc6G, pir_nrv2x` in source order. -/
noncomputable def calculate_analytical_results (c : Config) :
    List ℝ × List ℝ × List EReal × List EReal :=
  ((distances c).map (fun d => calculate_prr_dij (o_spc6G c d)),
   (distances c).map (fun d => calculate_prr_dij (o_nrv2x c d)),
   (distances c).map (fun d => calculate_pir_dij (o_spc6G c d) c.rri),
   (distances c).map (fun d => calculate_pir_dij (o_nrv2x c d) c.rri))

/-! Concrete configurations used by counterexamples and witnesses. -/

/-- The end-to-end sample configuration of the specification. -/
noncomputable def cfgS : Config :=
  ⟨2, 5, 0.05, 23, 5.9, 2.5, -90, -95, 100, 0.001, 0.5, 2, 3, 0.1, 0.1, 200, 50⟩

/-- A configuration with `beta = 2 > 1`, where `int(1 / beta) = 0`. -/
noncomputable def cfgD : Config := ⟨0, 0, 2, 0, 0, 0, 0, 0, 0, 0, 0, 0, 0, 0, 0, 0, 0⟩

/-- A configuration with `beta = 1/4 ∈ (0, 1]`. -/
noncomputable def cfgE : Config := ⟨0, 0, 1/4, 0, 0, 0, 0, 0, 0, 0, 0, 0, 0, 0, 0, 0, 0⟩

/-- A configuration whose `step_distance = 2` does not divide
`max_distance = 5`. -/
noncomputable def cfgF : Config := ⟨0, 0, 0, 0, 0, 0, 0, 0, 0, 0, 0, 0, 0, 0, 0, 5, 2⟩

/-- A configuration with `channels² = 10000 > R = 200`, driving every
per-neighbour collision probability above 1 and hence the NR-V2X PRR outside
`[0, 1]`. -/
noncomputable def cfg0 : Config := ⟨100, 0, 1, 0, 10, 1, -90, -60, 100, 1, 0, 1, 1, 2, 0, 0, 1⟩

/-- A benign configuration (`R = 10⁶`, one channel, `s = 1/2`) on which the
threshold-adjustment loop exits immediately and all collision probabilities
stay inside `[0, 1]`. -/
noncomputable def cfgA : Config :=
  ⟨1, 0, 1, 0, 10, 1, -90, -60, 1000, 1/1000, 1/2, 1, 1, 1, 1, 0, 1⟩

/-- A configuration with `s = 0`, on which the threshold-adjustment loop exits
immediately. -/
noncomputable def cfgB : Config :=
  ⟨1, 0, 1, 0, 10, 1, -90, -60, 1000, 1/1000, 0, 1, 1, 1, 1, 0, 1⟩

/-! General lemmas about the embedding. -/

lemma pyRange_length (a b st : ℤ) (hst : 0 < st) :
    (pyRange a b st).length = ((b - a).toNat + st.toNat - 1) / st.toNat := by
  rw [pyRange, if_pos hst, List.length_map, List.length_range]

lemma pyRange_get (a b st : ℤ) (hst : 0 < st) (k : ℕ) (hk : k < (pyRange a b st).length) :
    (pyRange a b st).get ⟨k, hk⟩ = a + (k : ℤ) * st := by
  have hb : pyRange a b st =
      (List.range (((b - a).toNat + st.toNat - 1) / st.toNat)).map
        (fun (k : ℕ) => a + (k : ℤ) * st) := by
    rw [pyRange, if_pos hst]
  revert hk
  rw [hb]
  intro hk
  simp only [List.get_eq_getElem, List.getElem_map, List.getElem_range]

lemma pyRange_lt (a b st : ℤ) (hst : 0 < st) : ∀ x ∈ pyRange a b st, x < b := by
  intro x hx
  rw [pyRange, if_pos hst] at hx
  simp only [List.mem_map, List.mem_range] at hx
  obtain ⟨k, hk, rfl⟩ := hx
  have hs : (0:ℕ) < st.toNat := by omega
  have h1 : k + 1 ≤ ((b - a).toNat + st.toNat - 1) / st.toNat := hk
  have h2 : (k + 1) * st.toNat ≤ (b - a).toNat + st.toNat - 1 :=
    (Nat.le_div_iff_mul_le hs).mp h1
  have h3 : k * st.toNat + st.toNat ≤ (b - a).toNat + st.toNat - 1 := by
    have he : (k + 1) * st.toNat = k * st.toNat + st.toNat := by ring
    omega
  have h4 : ((k * st.toNat : ℕ) : ℤ) = (k : ℤ) * st := by
    push_cast
    rw [Int.toNat_of_nonneg hst.le]
  rw [← h4]
  generalize k * st.toNat = K at h3 ⊢
  omega

lemma list_prod_nonneg (l : List ℝ) (h : ∀ x ∈ l, 0 ≤ x) : 0 ≤ l.prod := by
  induction l with
  | nil => simp
  | cons a t ih =>
    rw [List.prod_cons]
    exact mul_nonneg (h a (List.mem_cons_self a t))
      (ih fun x hx => h x (List.mem_cons_of_mem a hx))

lemma list_prod_le_one (l : List ℝ) (h : ∀ x ∈ l, 0 ≤ x ∧ x ≤ 1) : l.prod ≤ 1 := by
  induction l with
  | nil => simp
  | cons a t ih =>
    rw [List.prod_cons]
    have ha := h a (List.mem_cons_self a t)
    have ht : ∀ x ∈ t, 0 ≤ x ∧ x ≤ 1 := fun x hx => h x (List.mem_cons_of_mem a hx)
    exact mul_le_one₀ ha.2 (list_prod_nonneg t fun x hx => (ht x hx).1) (ih ht)

lemma list_prod_mono (l : List ℝ) (f g : ℝ → ℝ) (h0 : ∀ x ∈ l, 0 ≤ f x)
    (hfg : ∀ x ∈ l, f x ≤ g x) : (l.map f).prod ≤ (l.map g).prod := by
  induction l with
  | nil => simp
  | cons a t ih =>
    simp only [List.map_cons, List.prod_cons]
    have h0a := h0 a (List.mem_cons_self a t)
    have hfa := hfg a (List.mem_cons_self a t)
    have ht0 : ∀ x ∈ t, 0 ≤ f x := fun x hx => h0 x (List.mem_cons_of_mem a hx)
    have htf : ∀ x ∈ t, f x ≤ g x := fun x hx => hfg x (List.mem_cons_of_mem a hx)
    exact mul_le_mul hfa (ih ht0 htf)
      (list_prod_nonneg _ (by simpa using ht0)) (le_trans h0a hfa)

lemma list_prod_pairs_gt_one (c : ℝ) (hc : 1 < c) :
    ∀ (n : ℕ) (l : List ℝ), (∀ x ∈ l, x ≤ -c) → l.length = 2 * n →
      1 ≤ l.prod ∧ (l ≠ [] → 1 < l.prod) := by
  intro n
  induction n with
  | zero =>
    intro l _ hl
    have : l = [] := List.length_eq_zero.mp (by omega)
    subst this
    simp
  | succ m ih =>
    intro l h hl
    match l with
    | [] => simp at hl
    | [a] => simp at hl; omega
    | a :: b :: r =>
      have hr : r.length = 2 * m := by
        simp only [List.length_cons] at hl
        omega
      have hra : ∀ x ∈ r, x ≤ -c :=
        fun x hx => h x (List.mem_cons_of_mem a (List.mem_cons_of_mem b hx))
      have ha : a ≤ -c := h a (List.mem_cons_self _ _)
      have hb : b ≤ -c := h b (List.mem_cons_of_mem a (List.mem_cons_self _ _))
      have hcc : c * c ≤ a * b := by nlinarith
      have hab : 1 < a * b := by nlinarith
      obtain ⟨hr1, _⟩ := ih r hra hr
      have hps : (a :: b :: r).prod = a * b * r.prod := by
        rw [List.prod_cons, List.prod_cons, mul_assoc]
      constructor
      · rw [hps]
        nlinarith
      · intro _
        rw [hps]
        nlinarith

lemma forall2_ge_refl (l : List ℝ) : List.Forall₂ (fun a b => b ≤ a) l l := by
  induction l with
  | nil => exact List.Forall₂.nil
  | cons a t ih => exact List.Forall₂.cons le_rfl ih

lemma div_unit_interval {RU R : ℝ} (h0 : 0 ≤ RU) (h1 : RU ≤ R) :
    0 ≤ RU / R ∧ RU / R ≤ 1 := by
  rcases lt_or_eq_of_le (le_trans h0 h1) with hR | hR
  · exact ⟨div_nonneg h0 (le_trans h0 h1), (div_le_one hR).mpr h1⟩
  · have hRU : RU = 0 := le_antisymm (hR ▸ h1) h0
    simp [hRU]

/-- The driver never reads the `p_res_ik` field: its whole output is invariant
under changing only that input (line 78 of the driver passes `RU/R`, not the
input `p_res_ik`, as the second argument of `calculate_ps_dik`). -/
lemma CA_pres_invariant (c : Config) (p q : ℝ) :
    calculate_analytical_results (setPres c p) = calculate_analytical_results (setPres c q) := rfl

/-! Analytic facts about the error function and `PSR`. -/

lemma continuous_expNegSq : Continuous fun t : ℝ => Real.exp (-t ^ 2) :=
  Real.continuous_exp.comp (continuous_pow 2).neg

lemma integrable_expNegSq : MeasureTheory.Integrable fun t : ℝ => Real.exp (-t ^ 2) := by
  have h := integrable_exp_neg_mul_sq (b := (1:ℝ)) one_pos
  simpa using h

lemma intervalIntegrable_expNegSq (a b : ℝ) :
    IntervalIntegrable (fun t : ℝ => Real.exp (-t ^ 2)) MeasureTheory.volume a b :=
  continuous_expNegSq.intervalIntegrable a b

lemma gaussInt_nonneg {x : ℝ} (hx : 0 ≤ x) : 0 ≤ ∫ t in (0:ℝ)..x, Real.exp (-t ^ 2) :=
  intervalIntegral.integral_nonneg hx (fun u _ => (Real.exp_pos _).le)

lemma gaussInt_Ioi_eq : ∫ t in Set.Ioi (0:ℝ), Real.exp (-t ^ 2) = Real.sqrt Real.pi / 2 := by
  have h := integral_gaussian_Ioi 1
  simpa using h

lemma gaussInt_le {x : ℝ} (hx : 0 ≤ x) :
    (∫ t in (0:ℝ)..x, Real.exp (-t ^ 2)) ≤ Real.sqrt Real.pi / 2 := by
  rw [intervalIntegral.integral_of_le hx, ← gaussInt_Ioi_eq]
  apply MeasureTheory.setIntegral_mono_set integrable_expNegSq.integrableOn
  · exact MeasureTheory.ae_of_all _ (fun t => (Real.exp_pos _).le)
  · exact (Set.Ioc_subset_Ioi_self).eventuallyLE

lemma erf_neg_eq (x : ℝ) : erf (-x) = - erf x := by
  have hcomp : (∫ t in (0:ℝ)..x, Real.exp (-t ^ 2)) =
      ∫ t in (-x)..(0:ℝ), Real.exp (-t ^ 2) := by
    have h := intervalIntegral.integral_comp_neg (f := fun t : ℝ => Real.exp (-t ^ 2))
      (a := (0:ℝ)) (b := x)
    simp only [neg_sq, neg_zero] at h
    exact h
  have hsymm : (∫ t in (0:ℝ)..(-x), Real.exp (-t ^ 2)) =
      -∫ t in (-x)..(0:ℝ), Real.exp (-t ^ 2) :=
    intervalIntegral.integral_symm (-x) 0
  rw [erf, erf, hsymm, ← hcomp]
  ring

lemma erf_nonneg_of_nonneg {x : ℝ} (hx : 0 ≤ x) : 0 ≤ erf x :=
  mul_nonneg (by positivity) (gaussInt_nonneg hx)

lemma gaussInt_tail_pos (x : ℝ) : 0 < ∫ t in Set.Ioi x, Real.exp (-t ^ 2) := by
  have h1 : (0:ℝ) < ∫ t in x..(x+1), Real.exp (-t ^ 2) :=
    intervalIntegral.intervalIntegral_pos_of_pos_on (intervalIntegrable_expNegSq x (x+1))
      (fun t _ => Real.exp_pos _) (by linarith)
  have h2 : (∫ t in x..(x+1), Real.exp (-t ^ 2)) =
      ∫ t in Set.Ioc x (x+1), Real.exp (-t ^ 2) :=
    intervalIntegral.integral_of_le (by linarith)
  have h3 : (∫ t in Set.Ioc x (x+1), Real.exp (-t ^ 2)) ≤
      ∫ t in Set.Ioi x, Real.exp (-t ^ 2) := by
    apply MeasureTheory.setIntegral_mono_set integrable_expNegSq.integrableOn
    · exact MeasureTheory.ae_of_all _ (fun t => (Real.exp_pos _).le)
    · exact (Set.Ioc_subset_Ioi_self).eventuallyLE
  rw [h2] at h1
  linarith

lemma erf_lt_one (x : ℝ) : erf x < 1 := by
  rcases le_or_lt x 0 with hx | hx
  · have h := erf_nonneg_of_nonneg (neg_nonneg.mpr hx)
    have he : erf (-(-x)) = - erf (-x) := erf_neg_eq (-x)
    rw [neg_neg] at he
    linarith
  · have hx' := hx.le
    have hsplit : (∫ t in Set.Ioi (0:ℝ), Real.exp (-t ^ 2)) =
        (∫ t in Set.Ioc (0:ℝ) x, Real.exp (-t ^ 2)) +
          ∫ t in Set.Ioi x, Real.exp (-t ^ 2) := by
      rw [← MeasureTheory.setIntegral_union (Set.Ioc_disjoint_Ioi le_rfl) measurableSet_Ioi
        integrable_expNegSq.integrableOn integrable_expNegSq.integrableOn,
        Set.Ioc_union_Ioi_eq_Ioi hx']
    have htail := gaussInt_tail_pos x
    have hlt : (∫ t in (0:ℝ)..x, Real.exp (-t ^ 2)) < Real.sqrt Real.pi / 2 := by
      rw [intervalIntegral.integral_of_le hx']
      rw [← gaussInt_Ioi_eq, hsplit]
      linarith
    have hc : 0 < 2 / Real.sqrt Real.pi := by positivity
    have : 2 / Real.sqrt Real.pi * ∫ t in (0:ℝ)..x, Real.exp (-t ^ 2) <
        2 / Real.sqrt Real.pi * (Real.sqrt Real.pi / 2) :=
      mul_lt_mul_of_pos_left hlt hc
    have hone : 2 / Real.sqrt Real.pi * (Real.sqrt Real.pi / 2) = 1 := by
      have hs : Real.sqrt Real.pi ≠ 0 := by positivity
      field_simp
    rw [erf]
    rw [hone] at this
    exact this

lemma neg_one_lt_erf (x : ℝ) : -1 < erf x := by
  have h := erf_lt_one (-x)
  rw [erf_neg_eq] at h
  linarith

lemma PSR_pos (d Pt Ps K0 g : ℝ) : 0 < PSR d Pt Ps K0 g := by
  rw [PSR]
  have h := neg_one_lt_erf ((Pt - (PathLoss (|d| + 1) K0 g).1 - Ps) /
    ((PathLoss (|d| + 1) K0 g).2 * Real.sqrt 2))
  nlinarith

lemma PSR_le_one (d Pt Ps K0 g : ℝ) : PSR d Pt Ps K0 g ≤ 1 := by
  rw [PSR]
  have h := (erf_lt_one ((Pt - (PathLoss (|d| + 1) K0 g).1 - Ps) /
    ((PathLoss (|d| + 1) K0 g).2 * Real.sqrt 2))).le
  nlinarith

lemma window_length : window.length = 4000 := by
  rw [window, List.length_map, List.length_range]

lemma window_ne_nil : window ≠ [] := by
  intro h
  have hl := window_length
  rw [h] at hl
  simp at hl

lemma SPSR_nonneg {beta : ℝ} (hb : 0 ≤ beta) (Pt Ps K0 g : ℝ) :
    0 ≤ SPSR beta Pt Ps K0 g := by
  rw [SPSR]
  apply mul_nonneg hb
  apply List.sum_nonneg
  intro x hx
  simp only [List.mem_map] at hx
  obtain ⟨y, _, rfl⟩ := hx
  exact (PSR_pos _ _ _ _ _).le

lemma SPSR_pos {beta : ℝ} (hb : 0 < beta) (Pt Ps K0 g : ℝ) :
    0 < SPSR beta Pt Ps K0 g := by
  rw [SPSR]
  apply mul_pos hb
  apply List.sum_pos
  · intro x hx
    simp only [List.mem_map] at hx
    obtain ⟨y, _, rfl⟩ := hx
    exact PSR_pos _ _ _ _ _
  · have hl : (window.map (fun x : ℤ => PSR (x:ℝ) Pt Ps K0 g)).length = 4000 := by
      rw [List.length_map, window_length]
    intro hmap
    rw [hmap] at hl
    simp at hl

lemma list_sum_le_length_mul (l : List ℝ) (c : ℝ) (h : ∀ x ∈ l, x ≤ c) :
    l.sum ≤ (l.length : ℝ) * c := by
  induction l with
  | nil => simp
  | cons a t ih =>
    simp only [List.sum_cons, List.length_cons]
    have h1 := ih (fun x hx => h x (List.mem_cons_of_mem a hx))
    have h2 := h a (List.mem_cons_self a t)
    push_cast
    linarith

lemma SPSR_le_card {beta : ℝ} (hb : 0 ≤ beta) (Pt Ps K0 g : ℝ) :
    SPSR beta Pt Ps K0 g ≤ beta * 4000 := by
  rw [SPSR]
  apply mul_le_mul_of_nonneg_left _ hb
  have hh : ∀ x ∈ window.map (fun x : ℤ => PSR (x:ℝ) Pt Ps K0 g), x ≤ 1 := by
    intro x hx
    simp only [List.mem_map] at hx
    obtain ⟨y, _, rfl⟩ := hx
    exact PSR_le_one _ _ _ _ _
  have hs := list_sum_le_length_mul _ 1 hh
  rw [List.length_map, window_length] at hs
  norm_num at hs
  exact hs

lemma common_neighbors_nonneg {beta : ℝ} (hb : 0 ≤ beta) (Pt Ps K0 g d : ℝ) :
    0 ≤ common_neighbors beta Pt Ps K0 g d := by
  rw [common_neighbors]
  apply mul_nonneg hb
  apply List.sum_nonneg
  intro x hx
  simp only [List.mem_map] at hx
  obtain ⟨y, _, rfl⟩ := hx
  have ha0 : 0 < PSR (y:ℝ) Pt Ps K0 g := PSR_pos _ _ _ _ _
  have hb0 : 0 < PSR |(y:ℝ) - d| Pt Ps K0 g := PSR_pos _ _ _ _ _
  have ha1 : PSR (y:ℝ) Pt Ps K0 g ≤ 1 := PSR_le_one _ _ _ _ _
  have hb1 : PSR |(y:ℝ) - d| Pt Ps K0 g ≤ 1 := PSR_le_one _ _ _ _ _
  have hr0 : 0 < rho d 3 := Real.exp_pos _
  have hmin : PSR (y:ℝ) Pt Ps K0 g * PSR |(y:ℝ) - d| Pt Ps K0 g ≤
      min (PSR (y:ℝ) Pt Ps K0 g) (PSR |(y:ℝ) - d| Pt Ps K0 g) := by
    rcases le_total (PSR (y:ℝ) Pt Ps K0 g) (PSR |(y:ℝ) - d| Pt Ps K0 g) with hab | hab
    · rw [min_eq_left hab]
      nlinarith
    · rw [min_eq_right hab]
      nlinarith
  nlinarith [mul_nonneg hr0.le (by linarith :
      (0:ℝ) ≤ min (PSR (y:ℝ) Pt Ps K0 g) (PSR |(y:ℝ) - d| Pt Ps K0 g) -
        PSR (y:ℝ) Pt Ps K0 g * PSR |(y:ℝ) - d| Pt Ps K0 g),
    mul_nonneg ha0.le hb0.le]

lemma common_neighbors_le_SPSR {beta : ℝ} (hb : 0 ≤ beta) (Pt Ps K0 g : ℝ) {d : ℝ}
    (hd : 0 ≤ d) : common_neighbors beta Pt Ps K0 g d ≤ SPSR beta Pt Ps K0 g := by
  rw [common_neighbors, SPSR]
  apply mul_le_mul_of_nonneg_left _ hb
  apply List.sum_le_sum
  intro y hy
  have ha0 : 0 < PSR (y:ℝ) Pt Ps K0 g := PSR_pos _ _ _ _ _
  have hb0 : 0 < PSR |(y:ℝ) - d| Pt Ps K0 g := PSR_pos _ _ _ _ _
  have ha1 : PSR (y:ℝ) Pt Ps K0 g ≤ 1 := PSR_le_one _ _ _ _ _
  have hb1 : PSR |(y:ℝ) - d| Pt Ps K0 g ≤ 1 := PSR_le_one _ _ _ _ _
  have hr0 : 0 ≤ rho d 3 := (Real.exp_pos _).le
  have hr1 : rho d 3 ≤ 1 := by
    rw [rho]
    exact Real.exp_le_one_iff.mpr (by linarith)
  have h1 : min (PSR (y:ℝ) Pt Ps K0 g) (PSR |(y:ℝ) - d| Pt Ps K0 g) ≤
      PSR (y:ℝ) Pt Ps K0 g := min_le_left _ _
  have h2 : PSR (y:ℝ) Pt Ps K0 g * PSR |(y:ℝ) - d| Pt Ps K0 g ≤
      PSR (y:ℝ) Pt Ps K0 g := by nlinarith
  nlinarith [mul_le_mul_of_nonneg_left h1 hr0,
    mul_le_mul_of_nonneg_left h2 (by linarith : (0:ℝ) ≤ 1 - rho d 3)]

/-! Bounds on the driver-internal quantities. -/

lemma o_dik_eq (R RU cn S : ℝ) (hR : R ≠ 0) :
    calculate_o_dik R RU (calculate_u_dik R RU cn S) =
      (R - RU) ^ 2 / R + cn / S * RU * (R - RU) / R := by
  rw [calculate_o_dik, calculate_u_dik]
  generalize cn / S = q
  field_simp
  ring

lemma spsr_final_pos (c : Config) (hb0 : 0 < c.beta) : 0 < spsr_final c := by
  rw [spsr_final, spsr_at]
  exact SPSR_pos hb0 _ _ _ _

lemma RU_final_bounds (c : Config) (hch0 : 0 ≤ c.channels) (hchR : c.channels < R_of c)
    (hb0 : 0 < c.beta) :
    0 ≤ RU_final c ∧ RU_final c ≤ R_of c ∧ 0 < R_of c - RU_final c := by
  have hR : 0 < R_of c := lt_of_le_of_lt hch0 hchR
  have hop0 : 0 ≤ c.channels / R_of c := div_nonneg hch0 hR.le
  have hop1 : c.channels / R_of c < 1 := (div_lt_one hR).mpr hchR
  have hbase0 : 0 < 1 - c.channels / R_of c := by linarith
  have hsp : 0 ≤ spsr_final c := (spsr_final_pos c hb0).le
  have hx0 : 0 < (1 - c.channels / R_of c) ^ spsr_final c := Real.rpow_pos_of_pos hbase0 _
  have hx1 : (1 - c.channels / R_of c) ^ spsr_final c ≤ 1 :=
    Real.rpow_le_one hbase0.le (by linarith) hsp
  have hRU : RU_final c = R_of c * (1 - (1 - c.channels / R_of c) ^ spsr_final c) := rfl
  refine ⟨?_, ?_, ?_⟩ <;> rw [hRU] <;> nlinarith

lemma q_bounds (c : Config) (hb0 : 0 < c.beta) {d : ℝ} (hd : 0 ≤ d) :
    0 ≤ common_neighbors c.beta c.P_t_dB (P_s_final c) (K0dB_of c) c.alpha d / spsr_final c ∧
    common_neighbors c.beta c.P_t_dB (P_s_final c) (K0dB_of c) c.alpha d / spsr_final c ≤ 1 := by
  have hsp := spsr_final_pos c hb0
  have hcn0 := common_neighbors_nonneg hb0.le c.P_t_dB (P_s_final c) (K0dB_of c) c.alpha d
  have hcns : common_neighbors c.beta c.P_t_dB (P_s_final c) (K0dB_of c) c.alpha d ≤
      spsr_final c := by
    have h := common_neighbors_le_SPSR hb0.le c.P_t_dB (P_s_final c) (K0dB_of c) c.alpha hd
    rw [spsr_final, spsr_at]
    exact h
  exact ⟨div_nonneg hcn0 hsp.le, (div_le_one hsp).mpr hcns⟩

lemma p_dik_at_bounds (c : Config) (hb0 : 0 < c.beta) (hch0 : 0 ≤ c.channels)
    (hchR : c.channels < R_of c) (hrc : 2 ≤ c.rc1 + c.rc2) {d : ℝ} (hd : 0 ≤ d) :
    0 ≤ p_dik_at c d ∧ p_dik_at c d ≤ c.channels ^ 2 / (R_of c - RU_final c) := by
  obtain ⟨hRU0, hRUR, hD⟩ := RU_final_bounds c hch0 hchR hb0
  have hR : 0 < R_of c := lt_of_le_of_lt hch0 hchR
  obtain ⟨hq0, hq1⟩ := q_bounds c hb0 hd
  have hp0 : 0 < PSR d c.P_t_dB (P_s_final c) (K0dB_of c) c.alpha := PSR_pos _ _ _ _ _
  have hp1 : PSR d c.P_t_dB (P_s_final c) (K0dB_of c) c.alpha ≤ 1 := PSR_le_one _ _ _ _ _
  have hrcpos : (0:ℝ) < c.rc1 + c.rc2 := by linarith
  have ht1 : 2 / (c.rc1 + c.rc2) ≤ 1 := (div_le_one hrcpos).mpr (by linarith)
  have ht0 : 0 < 2 / (c.rc1 + c.rc2) := div_pos (by norm_num) hrcpos
  have hmu0 : 0 < calculate_mu c.rc1 c.rc2
      (PSR d c.P_t_dB (P_s_final c) (K0dB_of c) c.alpha) := by
    rw [calculate_mu]
    nlinarith
  have hmu1 : calculate_mu c.rc1 c.rc2
      (PSR d c.P_t_dB (P_s_final c) (K0dB_of c) c.alpha) ≤ 1 := by
    rw [calculate_mu]
    nlinarith
  have ho := o_dik_eq (R_of c) (RU_final c)
    (common_neighbors c.beta c.P_t_dB (P_s_final c) (K0dB_of c) c.alpha d)
    (spsr_final c) hR.ne'
  have ho0 : 0 ≤ calculate_o_dik (R_of c) (RU_final c)
      (calculate_u_dik (R_of c) (RU_final c)
        (common_neighbors c.beta c.P_t_dB (P_s_final c) (K0dB_of c) c.alpha d)
        (spsr_final c)) := by
    rw [ho]
    have h1 : 0 ≤ (R_of c - RU_final c) ^ 2 / R_of c := by positivity
    have h2 : 0 ≤ common_neighbors c.beta c.P_t_dB (P_s_final c) (K0dB_of c) c.alpha d /
        spsr_final c * RU_final c * (R_of c - RU_final c) / R_of c :=
      div_nonneg (mul_nonneg (mul_nonneg hq0 hRU0) hD.le) hR.le
    linarith
  have ho1 : calculate_o_dik (R_of c) (RU_final c)
      (calculate_u_dik (R_of c) (RU_final c)
        (common_neighbors c.beta c.P_t_dB (P_s_final c) (K0dB_of c) c.alpha d)
        (spsr_final c)) ≤ R_of c - RU_final c := by
    rw [ho, div_add_div_same, div_le_iff₀ hR]
    nlinarith [mul_nonneg (mul_nonneg hD.le (sub_nonneg.mpr hq1)) hRU0]
  constructor
  · rw [p_dik_at, calculate_p_dik]
    exact mul_nonneg (mul_nonneg hmu0.le ho0) (sq_nonneg _)
  · rw [p_dik_at, calculate_p_dik]
    have hsq : (c.channels / (R_of c - RU_final c)) ^ 2 =
        c.channels ^ 2 / (R_of c - RU_final c) ^ 2 := div_pow _ _ _
    have hmo : calculate_mu c.rc1 c.rc2
          (PSR d c.P_t_dB (P_s_final c) (K0dB_of c) c.alpha) *
        calculate_o_dik (R_of c) (RU_final c)
          (calculate_u_dik (R_of c) (RU_final c)
            (common_neighbors c.beta c.P_t_dB (P_s_final c) (K0dB_of c) c.alpha d)
            (spsr_final c)) ≤ R_of c - RU_final c := by
      nlinarith
    calc calculate_mu c.rc1 c.rc2 (PSR d c.P_t_dB (P_s_final c) (K0dB_of c) c.alpha) *
          calculate_o_dik (R_of c) (RU_final c)
            (calculate_u_dik (R_of c) (RU_final c)
              (common_neighbors c.beta c.P_t_dB (P_s_final c) (K0dB_of c) c.alpha d)
              (spsr_final c)) *
          (c.channels / (R_of c - RU_final c)) ^ 2 ≤
        (R_of c - RU_final c) * (c.channels / (R_of c - RU_final c)) ^ 2 := by
          apply mul_le_mul_of_nonneg_right hmo (by positivity)
      _ = c.channels ^ 2 / (R_of c - RU_final c) := by
          rw [hsq]
          field_simp
          ring

/-- At loop exit (guaranteed by `hexit`) the final `RU` meets the sensing
bound. -/
lemma RU_final_le_of_exit (c : Config) (hexit : ∃ n, adjustExit c n) :
    RU_final c ≤ (1 - c.s) * R_of c := Nat.sInf_mem hexit

lemma prr_bounds_core (c : Config) (hb0 : 0 < c.beta) (hch0 : 0 ≤ c.channels)
    (hchR : c.channels < R_of c) (hrc : 2 ≤ c.rc1 + c.rc2) (hs0 : 0 < c.s)
    (hch2 : c.channels ^ 2 ≤ c.s * R_of c) (hexit : ∃ n, adjustExit c n) (d_ij : ℤ) :
    (0 ≤ calculate_prr_dij (o_spc6G c d_ij) ∧ calculate_prr_dij (o_spc6G c d_ij) ≤ 1) ∧
    (0 ≤ calculate_prr_dij (o_nrv2x c d_ij) ∧ calculate_prr_dij (o_nrv2x c d_ij) ≤ 1) := by
  have hRUle := RU_final_le_of_exit c hexit
  obtain ⟨hRU0, hRUR, hD⟩ := RU_final_bounds c hch0 hchR hb0
  have hR : 0 < R_of c := lt_of_le_of_lt hch0 hchR
  have hDsR : c.s * R_of c ≤ R_of c - RU_final c := by nlinarith
  have hplist : ∀ p ∈ p_dik_list c d_ij, 0 ≤ p ∧ p ≤ 1 := by
    intro p hp
    rw [p_dik_list] at hp
    simp only [List.mem_map] at hp
    obtain ⟨dik, _, rfl⟩ := hp
    obtain ⟨hp0, hp1⟩ := p_dik_at_bounds c hb0 hch0 hchR hrc (abs_nonneg ((dik:ℝ)))
    refine ⟨hp0, le_trans hp1 ?_⟩
    rw [div_le_one hD]
    linarith
  have hq := div_unit_interval hRU0 hRUR
  have h6g : ∀ p ∈ p_dik_list c d_ij,
      0 ≤ calculate_ps_dik p (RU_final c / R_of c) ∧
        calculate_ps_dik p (RU_final c / R_of c) ≤ 1 := by
    intro p hp
    obtain ⟨h0, h1⟩ := hplist p hp
    rw [calculate_ps_dik]
    constructor <;> nlinarith [hq.1, hq.2]
  have hnr : ∀ p ∈ p_dik_list c d_ij, 0 ≤ 1 - p ∧ 1 - p ≤ 1 := by
    intro p hp
    obtain ⟨h0, h1⟩ := hplist p hp
    constructor <;> linarith
  constructor
  · rw [calculate_prr_dij, o_spc6G, sub_sub_cancel]
    constructor
    · apply list_prod_nonneg
      intro x hx
      simp only [List.mem_map] at hx
      obtain ⟨p, hp, rfl⟩ := hx
      exact (h6g p hp).1
    · apply list_prod_le_one
      intro x hx
      simp only [List.mem_map] at hx
      obtain ⟨p, hp, rfl⟩ := hx
      exact h6g p hp
  · rw [calculate_prr_dij, o_nrv2x, sub_sub_cancel]
    constructor
    · apply list_prod_nonneg
      intro x hx
      simp only [List.mem_map] at hx
      obtain ⟨p, hp, rfl⟩ := hx
      exact (hnr p hp).1
    · apply list_prod_le_one
      intro x hx
      simp only [List.mem_map] at hx
      obtain ⟨p, hp, rfl⟩ := hx
      exact hnr p hp

/-! Claim theorems. -/

/-- Claim C8 (confirmed): for every `beta ≥ 0` and all real values of the
remaining parameters, `SPSR` is non-negative and `common_neighbors` is
non-negative for every real separation `d_i_k`, including negative separations
where the correlation factor `exp(-d_i_k)` exceeds 1. -/
theorem C8_nonneg : ∀ (beta P_t_dB P_s_dB K_0_dB alpha d_i_k : ℝ), 0 ≤ beta →
    0 ≤ SPSR beta P_t_dB P_s_dB K_0_dB alpha ∧
    0 ≤ common_neighbors beta P_t_dB P_s_dB K_0_dB alpha d_i_k :=
  fun _ _ _ _ _ _ hb => ⟨SPSR_nonneg hb _ _ _ _, common_neighbors_nonneg hb _ _ _ _ _⟩

/-- Witness for C8 at concrete inputs, with a negative separation. -/
theorem C8_nonneg_witness :
    (0:ℝ) ≤ 1 ∧ 0 ≤ SPSR 1 0 0 0 2 ∧ 0 ≤ common_neighbors 1 0 0 0 2 (-5) :=
  ⟨by norm_num, (C8_nonneg 1 0 0 0 2 (-5) (by norm_num)).1,
    (C8_nonneg 1 0 0 0 2 (-5) (by norm_num)).2⟩

/-- Claim C9 (confirmed): `rho(d_i_k, sigma)` equals `exp(-d_i_k)` for every
value of its second argument `sigma`; the output of `rho` is completely
independent of `sigma`. -/
theorem C9_rho_ignores_sigma : ∀ (d_i_k s1 s2 : ℝ),
    rho d_i_k s1 = rho d_i_k s2 ∧ rho d_i_k s1 = Real.exp (-d_i_k) :=
  fun _ _ _ => ⟨rfl, rfl⟩

/-- Claim C5 (confirmed): `calculate_pir_dij(p_o_dij, RRI)` returns `+∞`
exactly when `p_o_dij ≥ 1`, returns exactly `RRI / (1 - p_o_dij)` otherwise,
and in particular `calculate_pir_dij 0 rri = rri` for any `rri > 0`. -/
theorem C5_pir_special_cases : ∀ p_o_dij RRI : ℝ,
    (calculate_pir_dij p_o_dij RRI = ⊤ ↔ 1 ≤ p_o_dij) ∧
    (p_o_dij < 1 → calculate_pir_dij p_o_dij RRI = ((RRI / (1 - p_o_dij) : ℝ) : EReal)) ∧
    (0 < RRI → calculate_pir_dij 0 RRI = ((RRI : ℝ) : EReal)) := by
  intro p RRI
  refine ⟨⟨fun h => ?_, fun h => ?_⟩, fun h => ?_, fun _ => ?_⟩
  · by_contra hp
    rw [calculate_pir_dij, if_neg hp] at h
    exact (EReal.coe_ne_top _) h
  · rw [calculate_pir_dij, if_pos h]
  · rw [calculate_pir_dij, if_neg (not_le.mpr h)]
  · have hd : RRI / (1 - (0:ℝ)) = RRI := by norm_num
    rw [calculate_pir_dij, if_neg (by norm_num : ¬ (1:ℝ) ≤ 0), hd]

/-- Witness for C5 at concrete inputs. -/
theorem C5_pir_special_cases_witness :
    ((1:ℝ)/2 < 1) ∧ calculate_pir_dij (1/2 : ℝ) 3 = (((3:ℝ) / (1 - 1/2) : ℝ) : EReal) ∧
    ((0:ℝ) < 3) ∧ calculate_pir_dij 0 3 = ((3 : ℝ) : EReal) :=
  ⟨by norm_num, (C5_pir_special_cases (1/2) 3).2.1 (by norm_num), by norm_num,
    (C5_pir_special_cases 0 3).2.2 (by norm_num)⟩

/-- Counterexample to claim C7 as stated: for the (negative) fixed `RRI = -1`,
`calculate_pir_dij` is not monotone in the outage, at `o1 = 0 ≤ o2 = 1/2 < 1`. -/
theorem C7_cex : ¬ calculate_pir_dij 0 (-1) ≤ calculate_pir_dij (1/2) (-1) := by
  rw [calculate_pir_dij, calculate_pir_dij, if_neg (by norm_num), if_neg (by norm_num),
    EReal.coe_le_coe_iff]
  norm_num

/-- Claim C7 (corrected): for a fixed nonnegative `RRI`, `calculate_pir_dij`
is monotonically non-decreasing in the outage probability on outages strictly
below one. -/
theorem C7_fixed (RRI o1 o2 : ℝ) (hR : 0 ≤ RRI) (h12 : o1 ≤ o2) (h2 : o2 < 1) :
    calculate_pir_dij o1 RRI ≤ calculate_pir_dij o2 RRI := by
  have h1 : o1 < 1 := lt_of_le_of_lt h12 h2
  rw [calculate_pir_dij, calculate_pir_dij, if_neg (not_le.mpr h1), if_neg (not_le.mpr h2),
    EReal.coe_le_coe_iff]
  have d2 : 0 < 1 - o2 := by linarith
  gcongr

/-- Witness for C7 at concrete inputs. -/
theorem C7_fixed_witness :
    (0:ℝ) ≤ 2 ∧ (0:ℝ) ≤ 1/2 ∧ ((1:ℝ)/2 < 1) ∧
      calculate_pir_dij 0 2 ≤ calculate_pir_dij (1/2) 2 :=
  ⟨by norm_num, by norm_num, by norm_num,
    C7_fixed 2 0 (1/2) (by norm_num) (by norm_num) (by norm_num)⟩

/-- Counterexample to claim C3 as stated: at `beta = 2 > 0` the inner-range
step computed by the driver is `int(1/2) = 0`, not `max(1, floor(1/beta)) = 1`
(for such a step CPython `range` raises `ValueError`). -/
theorem C3_cex : inner_step cfgD ≠ max 1 ⌊(1:ℝ) / cfgD.beta⌋ := by
  have h1 : (1:ℝ) / cfgD.beta = 1/2 := by norm_num [cfgD]
  have h2 : ⌊(1:ℝ)/2⌋ = 0 := by
    rw [Int.floor_eq_zero_iff, Set.mem_Ico]
    norm_num
  rw [inner_step, h1, truncInt, if_pos (by norm_num), h2]
  decide

/-- Claim C3 (corrected): the inner neighbour-distance range is
`pyRange (int(d_ij - d_int)) (int(d_ij + d_int))` stepped by `int(1/beta)`,
and for `0 < beta ≤ 1` this step equals `max(1, floor(1/beta))` and is at
least 1. -/
theorem C3_fixed (c : Config) (h0 : 0 < c.beta) (h1 : c.beta ≤ 1) :
    inner_step c = max 1 ⌊(1:ℝ) / c.beta⌋ ∧ 1 ≤ inner_step c ∧
      ∀ d_ij : ℤ, d_ik_range c d_ij =
        pyRange (truncInt ((d_ij : ℝ) - d_int_at c d_ij))
          (truncInt ((d_ij : ℝ) + d_int_at c d_ij)) (inner_step c) := by
  have hb : (1:ℝ) ≤ 1 / c.beta := by
    rw [le_div_iff₀ h0, one_mul]
    exact h1
  have hfl : 1 ≤ ⌊(1:ℝ) / c.beta⌋ := by
    rw [Int.le_floor]
    exact_mod_cast hb
  have hstep : inner_step c = ⌊(1:ℝ) / c.beta⌋ := by
    rw [inner_step, truncInt, if_pos (by linarith : (0:ℝ) ≤ 1 / c.beta)]
  exact ⟨by rw [hstep, max_eq_right hfl], by rw [hstep]; exact hfl, fun _ => rfl⟩

/-- Witness for C3 at the concrete configuration `cfgE` with `beta = 1/4`. -/
theorem C3_fixed_witness :
    (0:ℝ) < cfgE.beta ∧ cfgE.beta ≤ 1 ∧
      inner_step cfgE = max 1 ⌊(1:ℝ) / cfgE.beta⌋ ∧ 1 ≤ inner_step cfgE :=
  ⟨by norm_num [cfgE], by norm_num [cfgE],
    (C3_fixed cfgE (by norm_num [cfgE]) (by norm_num [cfgE])).1,
    (C3_fixed cfgE (by norm_num [cfgE]) (by norm_num [cfgE])).2.1⟩

/-- Counterexample to claim C4 as stated: with `max_distance = 5` and
`step_distance = 2` the outer distance sequence contains `6 > 5`, so not every
element is at most `max_distance`. -/
theorem C4_cex : ¬ ∀ x ∈ distances cfgF, x ≤ cfgF.max_distance := by decide

/-- Claim C4 (corrected): for a positive step, the outer distance sequence is
exactly `0, step_distance, 2*step_distance, ...` with every element strictly
below `max_distance + step_distance` (so an element may exceed `max_distance`
when the step does not divide it), and each of the four returned sequences has
exactly one entry per element of that sequence, aligned by index. -/
theorem C4_fixed (c : Config) (hsd : 0 < c.step_distance) :
    (∀ (k : ℕ) (hk : k < (distances c).length),
        (distances c).get ⟨k, hk⟩ = (k : ℤ) * c.step_distance) ∧
    (∀ x ∈ distances c, x < c.max_distance + c.step_distance) ∧
    (calculate_analytical_results c).1.length = (distances c).length ∧
    (calculate_analytical_results c).2.1.length = (distances c).length ∧
    (calculate_analytical_results c).2.2.1.length = (distances c).length ∧
    (calculate_analytical_results c).2.2.2.length = (distances c).length := by
  refine ⟨?_, ?_, ?_, ?_, ?_, ?_⟩
  · intro k hk
    have h := pyRange_get 0 (c.max_distance + c.step_distance) c.step_distance hsd k hk
    rw [zero_add] at h
    exact h
  · intro x hx
    exact pyRange_lt _ _ _ hsd x hx
  all_goals simp [calculate_analytical_results]

/-- Witness for C4 at the concrete configuration `cfgF`. -/
theorem C4_fixed_witness :
    (0:ℤ) < cfgF.step_distance ∧
      (∀ x ∈ distances cfgF, x < cfgF.max_distance + cfgF.step_distance) :=
  ⟨by decide, (C4_fixed cfgF (by decide)).2.1⟩

/-- Counterexample to claim C1 as stated: changing only `p_res_ik` (here from
0 to 1, at the specification's own sample configuration) does not affect the
6G PRR sequence at all — the driver never uses the `p_res_ik` input (it passes
`RU/R` as the second argument of `calculate_ps_dik`), so the 6G sequence is
not changed, contrary to the claim that it changes monotonically. -/
theorem C1_cex :
    calculate_analytical_results (setPres cfgS 0) = calculate_analytical_results (setPres cfgS 1) ∧
    (calculate_analytical_results (setPres cfgS 0)).1 =
      (calculate_analytical_results (setPres cfgS 1)).1 := by
  constructor
  · exact CA_pres_invariant cfgS 0 1
  · rw [CA_pres_invariant cfgS 0 1]

/-- Claim C1 (corrected): changing only the input `p_res_ik` leaves the
NR-V2X PRR sequence unchanged, and in fact leaves the whole output (including
the 6G PRR sequence) unchanged, so the comparison `higher p_res_ik ⟹ lower or
equal 6G PRR at every distance sample` holds with equality everywhere. -/
theorem C1_fixed (c : Config) (p1 p2 : ℝ) :
    (calculate_analytical_results (setPres c p1)).2.1 =
      (calculate_analytical_results (setPres c p2)).2.1 ∧
    calculate_analytical_results (setPres c p1) = calculate_analytical_results (setPres c p2) ∧
    List.Forall₂ (fun a b => b ≤ a) (calculate_analytical_results (setPres c p1)).1
      (calculate_analytical_results (setPres c p2)).1 := by
  refine ⟨by rw [CA_pres_invariant c p1 p2], CA_pres_invariant c p1 p2, ?_⟩
  rw [CA_pres_invariant c p1 p2]
  exact forall2_ge_refl _

/-- Claim C10 (confirmed): with `p_dik ≥ 0` and `0 ≤ RU ≤ R`, the 6G
per-neighbour success probability used by the driver,
`calculate_ps_dik p_dik (RU/R) = 1 - p_dik * (RU/R)`, dominates the NR-V2X
per-neighbour success probability `1 - p_dik`; and whenever every per-neighbour
success probability at an outer distance lies in `[0,1]`, the aggregated 6G
PRR at that distance dominates the NR-V2X PRR. -/
theorem C10_sixg_dominates :
    (∀ p_dik RU R : ℝ, 0 ≤ p_dik → 0 ≤ RU → RU ≤ R →
      calculate_ps_dik p_dik (RU / R) = 1 - p_dik * (RU / R) ∧
      1 - p_dik ≤ calculate_ps_dik p_dik (RU / R)) ∧
    (∀ (l : List ℝ) (RU R : ℝ), 0 ≤ RU → RU ≤ R →
      (∀ p ∈ l, (0 ≤ 1 - p ∧ 1 - p ≤ 1) ∧
        (0 ≤ calculate_ps_dik p (RU / R) ∧ calculate_ps_dik p (RU / R) ≤ 1)) →
      calculate_prr_dij (1 - (l.map (fun p => 1 - p)).prod) ≤
        calculate_prr_dij (1 - (l.map (fun p => calculate_ps_dik p (RU / R))).prod)) := by
  constructor
  · intro p RU R hp h0 h1
    obtain ⟨hq0, hq1⟩ := div_unit_interval h0 h1
    constructor
    · rw [calculate_ps_dik]; ring
    · rw [calculate_ps_dik]
      nlinarith
  · intro l RU R h0 h1 hmem
    obtain ⟨hq0, hq1⟩ := div_unit_interval h0 h1
    rw [calculate_prr_dij, calculate_prr_dij, sub_sub_cancel, sub_sub_cancel]
    apply list_prod_mono
    · intro p hp
      exact ((hmem p hp).1).1
    · intro p hp
      have hp0 : 0 ≤ p := by linarith [((hmem p hp).1).2]
      rw [calculate_ps_dik]
      nlinarith

/-- Claim C6 (confirmed): if the threshold-adjustment loop terminates, then at
exit the recomputed `RU = calculate_RU(R, spsr, channels/R)` with
`spsr = SPSR(beta, P_t_dB, P_s_dB, K_0_dB, alpha)` at the final adjusted
`P_s_dB` satisfies `RU ≤ (1-s)*R`; the final `P_s_dB` is the initial one plus
exactly 3 dB per executed iteration, and every iteration that ran did so while
the bound was still violated. -/
theorem C6_threshold_loop (c : Config) (hexit : ∃ n, adjustExit c n) :
    calculate_RU (R_of c) (SPSR c.beta c.P_t_dB (P_s_final c) (K0dB_of c) c.alpha)
        (c.channels / R_of c) ≤ (1 - c.s) * R_of c ∧
    P_s_final c = c.P_s_dB + 3 * (adjustSteps c : ℝ) ∧
    ∀ m : ℕ, m < adjustSteps c →
      (1 - c.s) * R_of c <
        calculate_RU (R_of c) (SPSR c.beta c.P_t_dB (c.P_s_dB + 3 * (m:ℝ)) (K0dB_of c) c.alpha)
          (c.channels / R_of c) := by
  refine ⟨Nat.sInf_mem hexit, rfl, ?_⟩
  intro m hm
  have h : m ∉ {n | adjustExit c n} := Nat.not_mem_of_lt_sInf hm
  exact not_le.mp h

lemma cfgB_exit : adjustExit cfgB 0 := by
  show RU_at cfgB (cfgB.P_s_dB + 3 * ((0:ℕ):ℝ)) ≤ (1 - cfgB.s) * R_of cfgB
  rw [RU_at, calculate_RU]
  have hs : cfgB.s = 0 := by norm_num [cfgB]
  have hR : R_of cfgB = 1000000 := by rw [R_of]; norm_num [cfgB]
  rw [hs, hR]
  have hx : 0 ≤ ((1:ℝ) - cfgB.channels / 1000000) ^
      spsr_at cfgB (cfgB.P_s_dB + 3 * ((0:ℕ):ℝ)) := by
    apply Real.rpow_nonneg
    norm_num [cfgB]
  nlinarith [hx]

/-- Witness for C6 at the concrete configuration `cfgB`. -/
theorem C6_threshold_loop_witness :
    (∃ n, adjustExit cfgB n) ∧
    calculate_RU (R_of cfgB) (SPSR cfgB.beta cfgB.P_t_dB (P_s_final cfgB) (K0dB_of cfgB)
      cfgB.alpha) (cfgB.channels / R_of cfgB) ≤ (1 - cfgB.s) * R_of cfgB :=
  ⟨⟨0, cfgB_exit⟩, (C6_threshold_loop cfgB ⟨0, cfgB_exit⟩).1⟩

/-- Claim C2 (corrected): whenever `beta ∈ (0,1]`, `0 ≤ channels < R`,
`rc1 + rc2 ≥ 2`, `0 < s`, `channels² ≤ s·R` and the threshold-adjustment loop
terminates, every element of both returned PRR sequences lies in `[0,1]`. -/
theorem C2_fixed (c : Config) (hb0 : 0 < c.beta) (hb1 : c.beta ≤ 1) (hch0 : 0 ≤ c.channels)
    (hchR : c.channels < R_of c) (hrc : 2 ≤ c.rc1 + c.rc2) (hs0 : 0 < c.s)
    (hch2 : c.channels ^ 2 ≤ c.s * R_of c) (hexit : ∃ n, adjustExit c n) :
    (∀ x ∈ (calculate_analytical_results c).1, 0 ≤ x ∧ x ≤ 1) ∧
    (∀ x ∈ (calculate_analytical_results c).2.1, 0 ≤ x ∧ x ≤ 1) := by
  constructor
  · intro x hx
    have hx' : x ∈ (distances c).map (fun d => calculate_prr_dij (o_spc6G c d)) := hx
    simp only [List.mem_map] at hx'
    obtain ⟨d, _, rfl⟩ := hx'
    exact (prr_bounds_core c hb0 hch0 hchR hrc hs0 hch2 hexit d).1
  · intro x hx
    have hx' : x ∈ (distances c).map (fun d => calculate_prr_dij (o_nrv2x c d)) := hx
    simp only [List.mem_map] at hx'
    obtain ⟨d, _, rfl⟩ := hx'
    exact (prr_bounds_core c hb0 hch0 hchR hrc hs0 hch2 hexit d).2

lemma cfgA_R : R_of cfgA = 1000000 := by
  rw [R_of]
  norm_num [cfgA]

lemma cfgA_exit : adjustExit cfgA 0 := by
  show RU_at cfgA (cfgA.P_s_dB + 3 * ((0:ℕ):ℝ)) ≤ (1 - cfgA.s) * R_of cfgA
  rw [RU_at, calculate_RU, cfgA_R]
  have hS4 : spsr_at cfgA (cfgA.P_s_dB + 3 * ((0:ℕ):ℝ)) ≤ 4000 := by
    rw [spsr_at]
    have h := SPSR_le_card (show (0:ℝ) ≤ cfgA.beta by norm_num [cfgA]) cfgA.P_t_dB
      (cfgA.P_s_dB + 3 * ((0:ℕ):ℝ)) (K0dB_of cfgA) cfgA.alpha
    have h2 : cfgA.beta * 4000 = 4000 := by norm_num [cfgA]
    rw [h2] at h
    exact h
  have hch : cfgA.channels = 1 := by norm_num [cfgA]
  have hs : cfgA.s = 1/2 := by norm_num [cfgA]
  rw [hch, hs]
  have key : (1:ℝ)/2 ≤ ((1:ℝ) - 1/1000000) ^ spsr_at cfgA (cfgA.P_s_dB + 3 * ((0:ℕ):ℝ)) := by
    have h1 : ((1:ℝ) - 1/1000000) ^ (4000:ℝ) ≤
        ((1:ℝ) - 1/1000000) ^ spsr_at cfgA (cfgA.P_s_dB + 3 * ((0:ℕ):ℝ)) :=
      Real.rpow_le_rpow_of_exponent_ge (by norm_num) (by norm_num) hS4
    have h2 : ((1:ℝ) - 1/1000000) ^ ((4000:ℕ):ℝ) = ((1:ℝ) - 1/1000000) ^ (4000:ℕ) :=
      Real.rpow_natCast _ 4000
    have h3 : (1:ℝ) + 4000 * (-(1/1000000)) ≤ ((1:ℝ) + -(1/1000000)) ^ (4000:ℕ) := by
      have h := one_add_mul_le_pow (show (-2:ℝ) ≤ -(1/1000000) by norm_num) 4000
      push_cast at h
      exact h
    have h4 : ((1:ℝ) + -(1/1000000)) = ((1:ℝ) - 1/1000000) := by norm_num
    rw [h4] at h3
    have h5 : ((4000:ℕ):ℝ) = (4000:ℝ) := by norm_num
    rw [h5] at h2
    nlinarith [h1, h2, h3]
  nlinarith [key]

/-- Witness for C2 at the concrete configuration `cfgA`. -/
theorem C2_fixed_witness :
    (0:ℝ) < cfgA.beta ∧ cfgA.channels ^ 2 ≤ cfgA.s * R_of cfgA ∧
    (∃ n, adjustExit cfgA n) ∧
    (∀ x ∈ (calculate_analytical_results cfgA).1, 0 ≤ x ∧ x ≤ 1) ∧
    (∀ x ∈ (calculate_analytical_results cfgA).2.1, 0 ≤ x ∧ x ≤ 1) := by
  have hexit : ∃ n, adjustExit cfgA n := ⟨0, cfgA_exit⟩
  have h := C2_fixed cfgA (by norm_num [cfgA]) (by norm_num [cfgA]) (by norm_num [cfgA])
    (by rw [cfgA_R]; norm_num [cfgA]) (by norm_num [cfgA]) (by norm_num [cfgA])
    (by rw [cfgA_R]; norm_num [cfgA]) hexit
  exact ⟨by norm_num [cfgA], by rw [cfgA_R]; norm_num [cfgA], hexit, h.1, h.2⟩

lemma cfg0_R : R_of cfg0 = 200 := by
  rw [R_of]
  norm_num [cfg0]

lemma cfg0_mu (x : ℝ) : calculate_mu cfg0.rc1 cfg0.rc2 x = 1 := by
  rw [calculate_mu]
  norm_num [cfg0]

lemma cfg0_p_dik_ge {d : ℝ} (hd : 0 ≤ d) : 50 ≤ p_dik_at cfg0 d := by
  have hch0 : (0:ℝ) ≤ cfg0.channels := by norm_num [cfg0]
  have hchR : cfg0.channels < R_of cfg0 := by rw [cfg0_R]; norm_num [cfg0]
  have hb0 : (0:ℝ) < cfg0.beta := by norm_num [cfg0]
  obtain ⟨hRU0, hRUR, hD⟩ := RU_final_bounds cfg0 hch0 hchR hb0
  obtain ⟨hq0, hq1⟩ := q_bounds cfg0 hb0 hd
  have hR : (0:ℝ) < R_of cfg0 := by rw [cfg0_R]; norm_num
  have ho := o_dik_eq (R_of cfg0) (RU_final cfg0)
    (common_neighbors cfg0.beta cfg0.P_t_dB (P_s_final cfg0) (K0dB_of cfg0) cfg0.alpha d)
    (spsr_final cfg0) hR.ne'
  rw [p_dik_at, cfg0_mu, calculate_p_dik, one_mul, ho]
  have hch : cfg0.channels = 100 := by norm_num [cfg0]
  rw [hch, cfg0_R]
  rw [cfg0_R] at hD
  have hterm2 : 0 ≤ common_neighbors cfg0.beta cfg0.P_t_dB (P_s_final cfg0) (K0dB_of cfg0)
      cfg0.alpha d / spsr_final cfg0 * RU_final cfg0 * (200 - RU_final cfg0) / 200 :=
    div_nonneg (mul_nonneg (mul_nonneg hq0 hRU0) hD.le) (by norm_num)
  have hsq : ((100:ℝ) / (200 - RU_final cfg0)) ^ 2 = 10000 / (200 - RU_final cfg0) ^ 2 := by
    rw [div_pow]
    norm_num
  have hmain : ((200 - RU_final cfg0) ^ 2 / 200) * ((100:ℝ) / (200 - RU_final cfg0)) ^ 2
      = 50 := by
    rw [hsq]
    field_simp
    ring
  calc (50:ℝ) = (200 - RU_final cfg0) ^ 2 / 200 * ((100:ℝ) / (200 - RU_final cfg0)) ^ 2 :=
        hmain.symm
    _ ≤ ((200 - RU_final cfg0) ^ 2 / 200 +
          common_neighbors cfg0.beta cfg0.P_t_dB (P_s_final cfg0) (K0dB_of cfg0)
            cfg0.alpha d / spsr_final cfg0 * RU_final cfg0 * (200 - RU_final cfg0) / 200) *
          ((100:ℝ) / (200 - RU_final cfg0)) ^ 2 := by
        apply mul_le_mul_of_nonneg_right (by linarith) (by positivity)

lemma cfg0_d_int : 1 < d_int_at cfg0 0 := by
  have hPt : dB2lin cfg0.P_t_dB = 1 := by
    rw [dB2lin, show cfg0.P_t_dB = 0 by norm_num [cfg0], show ((0:ℝ)/10) = 0 by norm_num,
      Real.rpow_zero]
  have hγ : dB2lin cfg0.sinr_threshold_dB = 1 := by
    rw [dB2lin, show cfg0.sinr_threshold_dB = 0 by norm_num [cfg0],
      show ((0:ℝ)/10) = 0 by norm_num, Real.rpow_zero]
  have hK0dB : K0dB_of cfg0 = -52.4 := by
    rw [K0dB_of, log10, show cfg0.fc = 10 by norm_num [cfg0],
      div_self (ne_of_gt (Real.log_pos (by norm_num)))]
    norm_num
  have hK0 : dB2lin (K0dB_of cfg0) = (10:ℝ) ^ (-(5.24:ℝ)) := by
    rw [dB2lin, hK0dB, show ((-52.4:ℝ)/10) = -(5.24:ℝ) by norm_num]
  have hN0 : dB2lin cfg0.N_0_dB = (10:ℝ) ^ (-(6:ℝ)) := by
    rw [dB2lin, show cfg0.N_0_dB = -60 by norm_num [cfg0],
      show ((-60:ℝ)/10) = -(6:ℝ) by norm_num]
  have hKgt : (10:ℝ) ^ (-(6:ℝ)) < (10:ℝ) ^ (-(5.24:ℝ)) :=
    (Real.rpow_lt_rpow_left_iff (by norm_num : (1:ℝ) < 10)).mpr (by norm_num)
  have hNpos : (0:ℝ) < (10:ℝ) ^ (-(6:ℝ)) := Real.rpow_pos_of_pos (by norm_num) _
  rw [d_int_at, calculate_d_int, hPt, hγ, hK0, hN0, show cfg0.alpha = 1 by norm_num [cfg0]]
  rw [show (((0:ℤ):ℝ) + 1) = 1 by norm_num, Real.one_rpow]
  rw [show (1:ℝ)/1 = 1 by norm_num, Real.rpow_one]
  simp only [one_mul, mul_one, div_one]
  rw [one_lt_div (by linarith)]
  linarith

lemma cfg0_step1 : inner_step cfg0 = 1 := by
  rw [inner_step, show (1:ℝ)/cfg0.beta = 1 by norm_num [cfg0], truncInt,
    if_pos (by norm_num : (0:ℝ) ≤ 1)]
  exact Int.floor_one

lemma cfg0_range_eq : d_ik_range cfg0 0 =
    pyRange (-⌊d_int_at cfg0 0⌋) ⌊d_int_at cfg0 0⌋ 1 := by
  have hpos : (0:ℝ) < d_int_at cfg0 0 := lt_trans one_pos cfg0_d_int
  have h1 : truncInt (((0:ℤ):ℝ) - d_int_at cfg0 0) = -⌊d_int_at cfg0 0⌋ := by
    rw [show (((0:ℤ):ℝ) - d_int_at cfg0 0) = -(d_int_at cfg0 0) by push_cast; ring]
    rw [truncInt, if_neg (not_le.mpr (by linarith : -(d_int_at cfg0 0) < 0)), Int.ceil_neg]
  have h2 : truncInt (((0:ℤ):ℝ) + d_int_at cfg0 0) = ⌊d_int_at cfg0 0⌋ := by
    rw [show (((0:ℤ):ℝ) + d_int_at cfg0 0) = d_int_at cfg0 0 by push_cast; ring]
    rw [truncInt, if_pos (by linarith : (0:ℝ) ≤ d_int_at cfg0 0)]
  rw [d_ik_range, h1, h2, cfg0_step1]

lemma cfg0_len : ∃ m : ℕ, 1 ≤ m ∧ (d_ik_range cfg0 0).length = 2 * m := by
  have hk : 1 ≤ ⌊d_int_at cfg0 0⌋ := by
    rw [Int.le_floor]
    exact_mod_cast cfg0_d_int.le
  refine ⟨(⌊d_int_at cfg0 0⌋).toNat, by omega, ?_⟩
  rw [cfg0_range_eq, pyRange_length _ _ _ (by norm_num)]
  have h1 : ((1:ℤ)).toNat = 1 := rfl
  rw [h1, Nat.add_sub_cancel, Nat.div_one]
  omega

lemma cfg0_nr_factors : ∀ x ∈ (p_dik_list cfg0 0).map (fun p => 1 - p), x ≤ -(49:ℝ) := by
  intro x hx
  rw [p_dik_list, List.map_map] at hx
  simp only [List.mem_map, Function.comp] at hx
  obtain ⟨dik, _, rfl⟩ := hx
  have h := cfg0_p_dik_ge (abs_nonneg ((dik:ℝ)))
  linarith

lemma cfg0_nr_prod : 1 < ((p_dik_list cfg0 0).map (fun p => 1 - p)).prod := by
  obtain ⟨m, hm, hlen⟩ := cfg0_len
  have hlen2 : ((p_dik_list cfg0 0).map (fun p => 1 - p)).length = 2 * m := by
    rw [List.length_map, p_dik_list, List.length_map, hlen]
  have h := list_prod_pairs_gt_one 49 (by norm_num) m _ cfg0_nr_factors hlen2
  apply h.2
  intro hnil
  rw [hnil] at hlen2
  simp at hlen2
  omega

/-- Counterexample to claim C2 as stated: at the configuration `cfg0`
(accepted by `calculate_analytical_results`, with `channels² > R`), the NR-V2X
PRR sequence contains an element strictly greater than 1, so not every element
of both PRR sequences lies in `[0,1]`. -/
theorem C2_cex : ¬ ∀ x ∈ (calculate_analytical_results cfg0).2.1, 0 ≤ x ∧ x ≤ 1 := by
  intro hall
  have hdist : distances cfg0 = [0] := by decide
  have hc : (calculate_analytical_results cfg0).2.1 =
      (distances cfg0).map (fun d => calculate_prr_dij (o_nrv2x cfg0 d)) := rfl
  have hmem : calculate_prr_dij (o_nrv2x cfg0 0) ∈ (calculate_analytical_results cfg0).2.1 := by
    rw [hc, hdist]
    simp
  have hval := hall _ hmem
  have hgt : 1 < calculate_prr_dij (o_nrv2x cfg0 0) := by
    rw [calculate_prr_dij, o_nrv2x, sub_sub_cancel]
    exact cfg0_nr_prod
  linarith [hval.2]

/-- Witness for C10 at concrete inputs. -/
theorem C10_sixg_dominates_witness :
    (calculate_ps_dik (1/2) ((1:ℝ) / 2) = 1 - (1/2) * ((1:ℝ) / 2) ∧
      1 - (1/2 : ℝ) ≤ calculate_ps_dik (1/2) ((1:ℝ) / 2)) ∧
    calculate_prr_dij (1 - ([(1/2 : ℝ)].map (fun p => 1 - p)).prod) ≤
      calculate_prr_dij (1 - ([(1/2 : ℝ)].map (fun p => calculate_ps_dik p ((1:ℝ) / 2))).prod) :=
  ⟨C10_sixg_dominates.1 (1/2) 1 2 (by norm_num) (by norm_num) (by norm_num),
    C10_sixg_dominates.2 [(1/2 : ℝ)] 1 2 (by norm_num) (by norm_num) (by
      intro p hp
      simp only [List.mem_singleton] at hp
      subst hp
      norm_num [calculate_ps_dik])⟩

end SPC6G
